import Mathlib

/-!
Verification of the LFI (learning from interpretations) parameter-learning
module `learning/lfi.py` of the problog repository.

The Python module is shallowly embedded: pure functions become Lean
functions, floats become rationals, the mutable `LFIProblem` fields become
an explicit state record, Python exceptions become `Except`, and the
external collaborators (random source, grounder, knowledge compiler,
circuit evaluator, `math.log`) become oracle parameters.
-/

set_option autoImplicit false

namespace LFI

/-- Strings are modelled as lists of characters (the Python code only ever
slices and searches them). -/
abbrev Str := List Char

/-- Decimal rendering of a natural number, modelling Python `'%d' % n`
(as used in `'lfi_fact_%d' % self.count`). -/
def natChars (n : ℕ) : Str :=
  if n = 0 then ['0'] else (Nat.digits 10 n).reverse.map Nat.digitChar

/-- Numeric value of a decimal digit character (Python `int` on one char). -/
def charDigit (c : Char) : ℕ := c.toNat - 48

/-- Value of a decimal digit string, modelling Python `int(s)` on the
all-digit strings produced by the rewriter's `%d` formatting (Python
raises on anything else; callers below guard with `Char.isDigit`). -/
def natOfChars (s : Str) : ℕ := s.foldl (fun acc c => 10 * acc + charDigit c) 0

/-- Python `s.split('(')[0]`: the text before the first opening paren. -/
def beforeParen (s : Str) : Str := s.takeWhile (fun c => c ≠ '(')

/-- Python `s.rsplit('_', 1)[1]`: the text after the last underscore.
When `s` has no underscore, `rsplit` yields a one-element list and the
`[1]` access raises `IndexError`, modelled by `none`. -/
def afterLastUnderscore (s : Str) : Option Str :=
  if '_' ∈ s then some ((s.reverse.takeWhile (fun c => c ≠ '_')).reverse) else none

/-- `LFIProblem._update` line `index = int(fact.split('(')[0].rsplit('_',1)[1])`:
recover a weight-slot index from the rendered name of a ground query atom.
`none` models the exceptions Python raises there (`IndexError` when there is
no underscore, `ValueError` when the suffix is not a decimal number). -/
def parseSlot (s : Str) : Option ℕ :=
  match afterLastUnderscore (beforeParen s) with
  | none => none
  | some d => if d ≠ [] ∧ d.all (fun c => c.isDigit) then some (natOfChars d) else none

/-- The probability annotation carried by an atom (`Term.probability`):
a plain constant, a learnable marker `t(c)` / `t(_)` (constant start value
or not, the single-argument form the code asserts), or the rewriter's
`lfi(i)` weight-store reference. -/
inductive ProbAnn : Type where
  | const (v : ℚ)
  | t (start : Option ℚ)
  | lfi (i : ℕ)
deriving DecidableEq

/-- A problog atom: functor, rendered argument terms (opaque to the learner),
and optional probability annotation. -/
structure Atom : Type where
  functor : Str
  args : List Str
  probability : Option ProbAnn
deriving DecidableEq

/-- Rendering of an atom the way problog's `Term.__str__` does:
`functor` alone when there are no arguments, else
`functor(arg1,arg2,...)`. -/
def renderAtom (a : Atom) : Str :=
  a.functor ++ if a.args.isEmpty then [] else '(' :: List.intercalate [','] a.args ++ [')']

/-- The functor `'lfi_fact_%d' % i` of the synthetic fact for slot `i`. -/
def lfiFactName (i : ℕ) : Str := "lfi_fact_".data ++ natChars i

/-- The (unannotated) synthetic fact atom `lfi_fact_i(args)`. -/
def mkLfiFact (i : ℕ) (args : List Str) : Atom :=
  { functor := lfiFactName i, args := args, probability := none }

/-- A clause body. Source bodies are opaque to the rewriter (passed through
unchanged); the redirection clauses it emits have a single-atom body. -/
inductive Body : Type where
  | opq (s : Str)
  | atomB (a : Atom)
deriving DecidableEq

/-- A program clause as traversed by `LFIProblem.__iter__`: a definite
clause, an annotated disjunction, or a fact. A `query(q)` declaration is a
fact whose functor is `query` and whose single argument is the rendered
queried atom. -/
inductive PClause : Type where
  | clause (head : Atom) (body : Body)
  | ad (heads : List Atom) (body : Body)
  | fact (a : Atom)
deriving DecidableEq

/-- `head.functor == 'query' and head.arity == 1`, the test `__iter__` uses
to drop pre-existing query declarations. -/
def isQueryAtom (a : Atom) : Bool :=
  a.functor == "query".data && a.args.length == 1

/-- Whether an atom carries a learnable `t(...)` probability
(the test `atom.probability and atom.probability.functor == 't'`). -/
def isLearnable (a : Atom) : Bool :=
  match a.probability with
  | some (ProbAnn.t _) => true
  | _ => false

/-- The mutable fields of `LFIProblem` touched by rewriting: the weight
store, the display names, the registered query atoms, and the position in
the random stream (modelling consumption of `random.random()` draws). -/
structure LFIState : Type where
  weights : List ℚ
  names : List Atom
  queries : List Atom
  rng : ℕ
deriving DecidableEq

/-- The fresh examples-free state of `LFIProblem.__init__`. -/
def initState : LFIState := { weights := [], names := [], queries := [], rng := 0 }

/-- The initial value `_process_atom` stores for a new slot: the explicitly
given constant start value when present, otherwise the next draw of the
random source (`random.random()`). -/
def startVal (rand : ℕ → ℚ) (k : ℕ) : Option ℚ → ℚ
  | some c => c
  | none => rand k

/-- `LFIProblem._process_atom`: on a learnable atom, allocate the next free
slot `i = len(self.weights)`, build the replacement `lfi(i)::lfi_fact_i(args)`,
the redirection clause `p(args) :- lfi_fact_i(args)` and the declaration
`query(lfi_fact_i(args))`, record the initial weight, the display name and
the query atom. Any other atom passes through with no extra clauses. -/
def processAtom (rand : ℕ → ℚ) (st : LFIState) (a : Atom) :
    Atom × List PClause × LFIState :=
  match a.probability with
  | some (ProbAnn.t start) =>
    let count := st.weights.length
    let lfiFact : Atom := mkLfiFact count a.args
    let replacement : Atom :=
      { functor := lfiFactName count, args := a.args, probability := some (ProbAnn.lfi count) }
    let redirect : PClause :=
      PClause.clause { functor := a.functor, args := a.args, probability := none }
        (Body.atomB lfiFact)
    let queryDecl : PClause :=
      PClause.fact { functor := "query".data, args := [renderAtom lfiFact], probability := none }
    let w := startVal rand st.rng start
    let rng' := match start with | some _ => st.rng | none => st.rng + 1
    (replacement, [redirect, queryDecl],
     { weights := st.weights ++ [w], names := st.names ++ [a],
       queries := st.queries ++ [lfiFact], rng := rng' })
  | _ => (a, [], st)

/-- The head-by-head rewriting of an annotated disjunction in
`LFIProblem.__iter__` (shared body preserved, extra clauses concatenated). -/
def processHeads (rand : ℕ → ℚ) : LFIState → List Atom → List Atom × List PClause × LFIState
  | st, [] => ([], [], st)
  | st, h :: hs =>
    let r := processAtom rand st h
    let rest := processHeads rand r.2.2 hs
    (r.1 :: rest.1, r.2.1 ++ rest.2.1, rest.2.2)

/-- `LFIProblem.__iter__`: one traversal of the source program, dropping
pre-existing `query/1` declarations, rewriting every learnable head via
`_process_atom`, and emitting each rewritten clause followed by its extra
clauses. Returns the yielded clause sequence and the state after the
traversal. -/
def iterProg (rand : ℕ → ℚ) : LFIState → List PClause → List PClause × LFIState
  | st, [] => ([], st)
  | st, PClause.clause h b :: cs =>
    if isQueryAtom h then iterProg rand st cs
    else
      let r := processAtom rand st h
      let rest := iterProg rand r.2.2 cs
      (PClause.clause r.1 b :: (r.2.1 ++ rest.1), rest.2)
  | st, PClause.ad heads b :: cs =>
    let r := processHeads rand st heads
    let rest := iterProg rand r.2.2 cs
    (PClause.ad r.1 b :: (r.2.1 ++ rest.1), rest.2)
  | st, PClause.fact a :: cs =>
    if isQueryAtom a then iterProg rand st cs
    else
      let r := processAtom rand st a
      let rest := iterProg rand r.2.2 cs
      (PClause.fact r.1 :: (r.2.1 ++ rest.1), rest.2)

/-- Number of learnable atoms a clause contributes during one traversal
(query declarations are dropped before `_process_atom` ever sees them;
every head of an annotated disjunction is processed). -/
def learnableHeads : PClause → ℕ
  | PClause.clause h _ => if isQueryAtom h then 0 else (if isLearnable h then 1 else 0)
  | PClause.ad heads _ => heads.countP (fun h => isLearnable h)
  | PClause.fact a => if isQueryAtom a then 0 else (if isLearnable a then 1 else 0)

/-- Number of learnable atoms discovered in one full traversal of a source
program. -/
def learnableCount (src : List PClause) : ℕ := (src.map learnableHeads).sum

/-! ## Example grouping (`LFIProblem._process_examples`) -/

/-- A truth-value term of an evidence pair, kept as its rendered form
(`true` / `false` / anything else, turned into a Boolean only later by
`str2bool`). -/
abbrev TV := Str

/-- An evidence pair `(atom, value)` of an example, both rendered. -/
abbrev EvPair := Str × TV

/-- Strict lexicographic comparison of rendered terms, modelling the total
order Python's `sorted` uses on them. -/
def strLt : Str → Str → Bool
  | [], [] => false
  | [], _ :: _ => true
  | _ :: _, [] => false
  | a :: s, b :: t => if a < b then true else if b < a then false else strLt s t

/-- Non-strict order on evidence pairs (atom first, then value), the key
`sorted(example)` sorts by. -/
def pairLe (p q : EvPair) : Bool :=
  if strLt p.1 q.1 then true else if strLt q.1 p.1 then false else !strLt q.2 p.2

/-- Python `sorted(example)`. -/
def sortExample (e : List EvPair) : List EvPair :=
  List.insertionSort (fun p q => pairLe p q = true) e

/-- One `result[atoms].append(values)` step on the insertion-ordered group
list that models the `defaultdict(list)`. -/
def addToGroup (groups : List (List Str × List (List TV))) (k : List Str) (v : List TV) :
    List (List Str × List (List TV)) :=
  match groups with
  | [] => [(k, [v])]
  | g :: rest => if g.1 = k then (g.1, g.2 ++ [v]) :: rest else g :: addToGroup rest k v

/-- `LFIProblem._process_examples`: group the examples by their sorted atom
tuple. `atoms, values = zip(*sorted(example))` raises `ValueError` on an
empty example (unpacking an empty zip), modelled by `Except.error`. -/
def processExamples : List (List EvPair) → List (List Str × List (List TV)) →
    Except Unit (List (List Str × List (List TV)))
  | [], groups => Except.ok groups
  | e :: es, groups =>
    if e.isEmpty then Except.error ()
    else
      let s := sortExample e
      processExamples es (addToGroup groups (s.map (fun p => p.1)) (s.map (fun p => p.2)))

/-! ## Example compilation (`LFIProblem._compile_examples`) -/

/-- The inner loop of `_compile_examples` for one example group: thread the
reusable ground program through the group's value assignments, compile each
grounding, and collect `(atoms, example, compiled_program)` triples. A
grounding failure is an exception that propagates. `ground` and `compile`
are the external grounder and knowledge compiler. -/
def compileGroup {G C : Type} (ground : Option G → List (Str × TV) → Except Unit G)
    (compile : G → C) (atoms : List Str) :
    Option G → List (List TV) → Except Unit (List (List Str × List TV × C))
  | _, [] => Except.ok []
  | gp, ex :: rest => do
    let gp' ← ground gp (atoms.zip ex)
    let c := compile gp'
    let tail ← compileGroup ground compile atoms (some gp') rest
    Except.ok ((atoms, ex, c) :: tail)

/-- The outer loop of `_compile_examples` over the example groups
(each group restarts with `ground_program = None`). -/
def compileExamples {G C : Type} (ground : Option G → List (Str × TV) → Except Unit G)
    (compile : G → C) :
    List (List Str × List (List TV)) → Except Unit (List (List Str × List TV × C))
  | [] => Except.ok []
  | g :: gs => do
    let r ← compileGroup ground compile g.1 none g.2
    let rs ← compileExamples ground compile gs
    Except.ok (r ++ rs)

/-- `LFIProblem._compile_examples` after the base program has been
prepared: group the raw examples, then ground and compile each one.
A grouping failure occurs before any call to the grounder. -/
def compileAll {G C : Type} (ground : Option G → List (Str × TV) → Except Unit G)
    (compile : G → C) (examples : List (List EvPair)) :
    Except Unit (List (List Str × List TV × C)) := do
  let groups ← processExamples examples []
  compileExamples ground compile groups

/-! ## Evaluation (`LFIProblem._evaluate_examples`) -/

/-- `LFIProblem._evaluate_examples`, with the external evaluator's raw
outputs supplied as input: each compiled example contributes its evidence
probability and the raw `evaluator.evaluate(node)` value for each query
name; every query value strictly below `1e-6` is reported as exactly `0.0`
and every other value is reported unchanged. -/
def evaluateExamples (evals : List (ℚ × List (Str × ℚ))) : List (ℚ × List (Str × ℚ)) :=
  evals.map fun e =>
    (e.1, e.2.map fun p => (p.1, if p.2 < 1 / 1000000 then 0 else p.2))

/-! ## Parameter update (`LFIProblem._update`) -/

/-- The inner loop of `_update` over one example's `result.items()`:
parse each fact name back to a slot index and increment `fact_marg[index]`
and `fact_count[index]`. A name that does not parse, or an index outside
the weight-store range, raises in Python (`IndexError` / `ValueError`),
modelled by `Except.error`. -/
def tallyPairs : List (Str × ℚ) → List ℚ × List ℕ → Except Unit (List ℚ × List ℕ)
  | [], mc => Except.ok mc
  | p :: rest, mc =>
    match parseSlot p.1 with
    | none => Except.error ()
    | some index =>
      if index < mc.1.length then
        tallyPairs rest
          (mc.1.set index (mc.1.getD index 0 + p.2), mc.2.set index (mc.2.getD index 0 + 1))
      else Except.error ()

/-- The outer loop of `_update` over the evaluation results: tally each
example's posteriors, then add `math.log(pEvidence)` to the running score.
`math.log` raises `ValueError` on a non-positive argument, modelled by the
explicit guard; the logarithm itself is the oracle parameter `log` (the
score type `S` is `ℝ` with `log = Real.log` in the intended reading). -/
def updateLoop {S : Type} [Add S] (log : ℚ → S) :
    List (ℚ × List (Str × ℚ)) → List ℚ → List ℕ → S → Except Unit (List ℚ × List ℕ × S)
  | [], marg, cnt, score => Except.ok (marg, cnt, score)
  | r :: rest, marg, cnt, score => do
    let mc ← tallyPairs r.2 (marg, cnt)
    if 0 < r.1 then updateLoop log rest mc.1 mc.2 (score + log r.1) else Except.error ()

/-- The final loop of `_update`: `for index in range(count)`, overwrite
`weights[index]` with `fact_marg[index] / fact_count[index]` whenever
`fact_count[index] > 0`, and leave it untouched otherwise. -/
def applyUpdate (weights marg : List ℚ) (cnt : List ℕ) : List ℚ :=
  (List.range weights.length).map fun index =>
    if 0 < cnt.getD index 0 then marg.getD index 0 / (cnt.getD index 0 : ℚ)
    else weights.getD index 0

/-- `LFIProblem._update`: tally the posteriors and the score over all
results (starting from `fact_marg = [0.0]*count`, `fact_count = [0]*count`,
`score = 0.0`), then rewrite the weight store and return it with the
score. Any exception in the tally loop aborts before the weight store is
touched. -/
def update {S : Type} [Add S] [Zero S] (log : ℚ → S) (weights : List ℚ)
    (results : List (ℚ × List (Str × ℚ))) : Except Unit (List ℚ × S) := do
  let r ← updateLoop log results (List.replicate weights.length 0)
    (List.replicate weights.length 0) 0
  Except.ok (applyUpdate weights r.1 r.2.1, r.2.2)

/-! ## Convergence loop (`LFIProblem.run`) -/

/-- The `while` loop of `LFIProblem.run`, with the round scores supplied by
the oracle `s` (`s k` is the score returned by step `k+1`). The fuel is
`max_iter - iteration`, so `fuel = 0` is exactly the exit on
`iteration < max_iter` and the inner test is the exit on
`delta > min_improv`; each pass runs one `step()` and sets
`delta = score - prev_score; prev_score = score`. Returns the final
`(iteration, prev_score)`. -/
def runLoop (s : ℕ → ℚ) (minImp : ℚ) : ℕ → ℕ → ℚ → ℚ → ℕ × ℚ
  | 0, iter, prev, _ => (iter, prev)
  | fuel + 1, iter, prev, delta =>
    if delta > minImp then runLoop s minImp fuel (iter + 1) (s iter) (s iter - prev)
    else (iter, prev)

/-- `LFIProblem.run` after `prepare()`: start from `iteration = 0`,
`prev_score = -1e10`, `delta = 1000` and loop. Returns the final iteration
count and score. -/
def runLFI (s : ℕ → ℚ) (maxI : ℕ) (minImp : ℚ) : ℕ × ℚ :=
  runLoop s minImp maxI 0 (-(10 ^ 10)) 1000

/-- The value `prev_score` holds when `iteration = n`. -/
def prevSeq (s : ℕ → ℚ) : ℕ → ℚ
  | 0 => -(10 ^ 10)
  | n + 1 => s n

/-- The value `delta` holds when `iteration = n`. -/
def deltaSeq (s : ℕ → ℚ) : ℕ → ℚ
  | 0 => 1000
  | n + 1 => s n - prevSeq s n

/-! ## Specification-side aggregates for the update step -/

/-- Sum of the posterior values attributed to slot `i` across all results
(identical under a per-example and a per-pair reading). -/
def slotSum (results : List (ℚ × List (Str × ℚ))) (i : ℕ) : ℚ :=
  (results.map fun r =>
    ((r.2.filter fun p => parseSlot p.1 == some i).map fun p => p.2).sum).sum

/-- Number of (example, query-instance) pairs attributed to slot `i`
across all results — the denominator the code actually uses. -/
def slotCount (results : List (ℚ × List (Str × ℚ))) (i : ℕ) : ℕ :=
  (results.map fun r => (r.2.filter fun p => parseSlot p.1 == some i).length).sum

/-- Modelled from the spec: the number of EXAMPLES that reported at least
one value for slot `i` — the denominator named by the claim ("count of
examples that reported a value for slot i"). -/
def examplesReporting (results : List (ℚ × List (Str × ℚ))) (i : ℕ) : ℕ :=
  (results.filter fun r => r.2.any fun p => parseSlot p.1 == some i).length

/-- Modelled from the spec: the claim's literal formula for the new weight
of a slot with at least one contributing example — posterior sum divided by
the number of reporting examples. -/
def claimNewWeight (results : List (ℚ × List (Str × ℚ))) (i : ℕ) : ℚ :=
  slotSum results i / (examplesReporting results i : ℚ)

/-! ## Lemmas: decimal rendering and the name-to-slot round trip -/

lemma digitChar_isDigit {d : ℕ} (hd : d < 10) : (Nat.digitChar d).isDigit = true := by
  interval_cases d <;> decide

lemma charDigit_digitChar {d : ℕ} (hd : d < 10) : charDigit (Nat.digitChar d) = d := by
  interval_cases d <;> decide

lemma digitChar_ne_paren {d : ℕ} (hd : d < 10) : Nat.digitChar d ≠ '(' := by
  interval_cases d <;> decide

lemma digitChar_ne_underscore {d : ℕ} (hd : d < 10) : Nat.digitChar d ≠ '_' := by
  interval_cases d <;> decide

lemma natChars_mem {n : ℕ} {c : Char} (hc : c ∈ natChars n) :
    c.isDigit = true ∧ c ≠ '(' ∧ c ≠ '_' := by
  unfold natChars at hc
  split at hc
  · simp only [List.mem_singleton] at hc
    subst hc; exact ⟨by decide, by decide, by decide⟩
  · simp only [List.mem_map, List.mem_reverse] at hc
    obtain ⟨d, hd, rfl⟩ := hc
    have hlt : d < 10 := Nat.digits_lt_base (by norm_num) hd
    exact ⟨digitChar_isDigit hlt, digitChar_ne_paren hlt, digitChar_ne_underscore hlt⟩

lemma natChars_ne_nil (n : ℕ) : natChars n ≠ [] := by
  unfold natChars
  split
  · simp
  · next h =>
    simp only [ne_eq, List.map_eq_nil_iff, List.reverse_eq_nil_iff]
    exact Nat.digits_ne_nil_iff_ne_zero.mpr h

lemma foldl_digits (s : Str) : ∀ a : ℕ,
    s.foldl (fun acc c => 10 * acc + charDigit c) a =
      a * 10 ^ s.length + Nat.ofDigits 10 (s.map charDigit).reverse := by
  induction s with
  | nil => intro a; simp [Nat.ofDigits]
  | cons c t ih =>
    intro a
    rw [List.foldl_cons, ih, List.map_cons, List.reverse_cons, Nat.ofDigits_append]
    simp only [List.length_cons, List.length_reverse, List.length_map, Nat.ofDigits_singleton]
    ring

lemma map_id_of_mem {α : Type} {l : List α} {f : α → α} (h : ∀ a ∈ l, f a = a) :
    l.map f = l := by
  induction l with
  | nil => rfl
  | cons x xs ih =>
    simp only [List.map_cons, h x (List.mem_cons_self x xs),
      ih (fun a ha => h a (List.mem_cons_of_mem x ha))]

lemma natOfChars_natChars (n : ℕ) : natOfChars (natChars n) = n := by
  unfold natOfChars natChars
  split
  · next h => subst h; decide
  · next h =>
    rw [foldl_digits, zero_mul, zero_add, List.map_reverse, List.map_reverse,
      List.reverse_reverse, List.map_map]
    have heq : (Nat.digits 10 n).map (charDigit ∘ Nat.digitChar) = Nat.digits 10 n := by
      apply map_id_of_mem
      intro d hd
      exact charDigit_digitChar (Nat.digits_lt_base (by norm_num) hd)
    rw [heq, Nat.ofDigits_digits]

lemma takeWhile_append_all {p : Char → Bool} {xs ys : Str} (h : ∀ c ∈ xs, p c = true)
    (hy : ys = [] ∨ ∃ c t, ys = c :: t ∧ p c = false) :
    (xs ++ ys).takeWhile p = xs := by
  induction xs with
  | nil =>
    rcases hy with rfl | ⟨c, t, rfl, hc⟩
    · rfl
    · simp [List.takeWhile, hc]
  | cons x xs ih =>
    have hx : p x = true := h x (List.mem_cons_self x xs)
    simp only [List.cons_append, List.takeWhile_cons, hx, if_true]
    rw [ih (fun c hc => h c (List.mem_cons_of_mem x hc))]

lemma beforeParen_render (i : ℕ) (args : List Str) :
    beforeParen (renderAtom (mkLfiFact i args)) = lfiFactName i := by
  unfold beforeParen renderAtom mkLfiFact
  apply takeWhile_append_all
  · intro c hc
    rw [decide_eq_true_eq]
    unfold lfiFactName at hc
    rw [List.mem_append] at hc
    rcases hc with hc | hc
    · revert hc
      have : ∀ c ∈ "lfi_fact_".data, c ≠ '(' := by decide
      exact this c
    · exact (natChars_mem hc).2.1
  · cases hA : args.isEmpty
    · right
      exact ⟨'(', List.intercalate [','] args ++ [')'], by simp [hA], by decide⟩
    · left
      simp [hA]

lemma afterLastUnderscore_lfiFactName (i : ℕ) :
    afterLastUnderscore (lfiFactName i) = some (natChars i) := by
  unfold afterLastUnderscore lfiFactName
  rw [if_pos]
  · congr 1
    rw [List.reverse_append]
    have hrev : ("lfi_fact_".data).reverse = '_' :: "tcaf_ifl".data := by decide
    rw [hrev, takeWhile_append_all (p := fun c => decide (c ≠ '_'))]
    · exact List.reverse_reverse _
    · intro c hc
      rw [decide_eq_true_eq]
      exact (natChars_mem (List.mem_reverse.mp hc)).2.2
    · right
      exact ⟨'_', "tcaf_ifl".data, rfl, by decide⟩
  · rw [List.mem_append]
    left
    decide

lemma parseSlot_render (i : ℕ) (args : List Str) :
    parseSlot (renderAtom (mkLfiFact i args)) = some i := by
  unfold parseSlot
  rw [beforeParen_render, afterLastUnderscore_lfiFactName]
  have h2 : (natChars i).all (fun c => c.isDigit) = true := by
    rw [List.all_eq_true]
    intro c hc
    exact (natChars_mem hc).1
  simp only [if_pos (And.intro (natChars_ne_nil i) h2)]
  rw [natOfChars_natChars]

/-- Claim C9: for every slot index `i` and every argument list, parsing the
string rendering of the synthetic query atom `lfi_fact_i(args)` — the text
before the first opening paren, then the suffix after the last underscore —
recovers exactly `i`, so each posterior reported by the evaluator is
attributed during the update to the slot whose query produced it. -/
theorem claim_C9_slot_roundtrip (i : ℕ) (args : List Str) :
    parseSlot (renderAtom (mkLfiFact i args)) = some i :=
  parseSlot_render i args

/-! ## Claim C5: clamping in the Evaluator Driver -/

/-- Claim C5: in the Evaluator Driver's per-example output (paired
positionally with the raw evaluator values), every evaluated query
posterior strictly below `1e-6` is reported as exactly `0.0`, and every
posterior at least `1e-6` is reported unchanged; evidence probabilities
and query names pass through untouched. -/
theorem claim_C5_clamping (evals : List (ℚ × List (Str × ℚ))) :
    List.Forall₂ (fun out inp =>
      out.1 = inp.1 ∧
      List.Forall₂ (fun q r => q.1 = r.1 ∧
        (r.2 < 1 / 1000000 → q.2 = 0) ∧ (1 / 1000000 ≤ r.2 → q.2 = r.2)) out.2 inp.2)
      (evaluateExamples evals) evals := by
  unfold evaluateExamples
  rw [List.forall₂_map_left_iff, List.forall₂_same]
  intro e _
  refine ⟨rfl, ?_⟩
  rw [List.forall₂_map_left_iff, List.forall₂_same]
  intro p _
  refine ⟨rfl, ?_, ?_⟩
  · intro hlt
    show (if p.2 < 1 / 1000000 then (0 : ℚ) else p.2) = 0
    rw [if_pos hlt]
  · intro hge
    show (if p.2 < 1 / 1000000 then (0 : ℚ) else p.2) = p.2
    rw [if_neg (not_lt.mpr hge)]

/-- Instantiation of the clamping theorem on a concrete evaluation batch. -/
theorem claim_C5_clamping_witness :
    List.Forall₂ (fun out inp =>
      out.1 = inp.1 ∧
      List.Forall₂ (fun (q : Str × ℚ) (r : Str × ℚ) => q.1 = r.1 ∧
        (r.2 < 1 / 1000000 → q.2 = 0) ∧ (1 / 1000000 ≤ r.2 → q.2 = r.2)) out.2 inp.2)
      (evaluateExamples [(1, [("q".data, 1 / 2000000), ("r".data, 1 / 2)])])
      [(1, [("q".data, 1 / 2000000), ("r".data, 1 / 2)])] :=
  claim_C5_clamping [(1, [("q".data, 1 / 2000000), ("r".data, 1 / 2)])]

/-! ## Claims C2 and C6: the convergence loop -/

lemma runLoop_step (s : ℕ → ℚ) (minImp : ℚ) (fuel iter : ℕ) (prev delta : ℚ)
    (h : delta > minImp) :
    runLoop s minImp (fuel + 1) iter prev delta =
      runLoop s minImp fuel (iter + 1) (s iter) (s iter - prev) := by
  rw [runLoop, if_pos h]

lemma runLoop_stop (s : ℕ → ℚ) (minImp : ℚ) (fuel iter : ℕ) (prev delta : ℚ)
    (h : ¬ delta > minImp) :
    runLoop s minImp (fuel + 1) iter prev delta = (iter, prev) := by
  rw [runLoop, if_neg h]

/-- Claim C2 counterexample: with `minImprovement = 1`, `maxIterations = 5`
and every round score `0` (each example's evidence probability `1`), the
loop runs exactly 2 rounds, not 1: the first delta is computed against the
sentinel `-1e10` and equals `1e10 > 1`, so a second round always runs. -/
theorem claim_C2_counterexample :
    (runLFI (fun _ => 0) 5 1).1 = 2 ∧ ¬ (runLFI (fun _ => 0) 5 1).1 = 1 := by
  have e : runLFI (fun _ => 0) 5 1 = (2, 0) := by
    show runLoop (fun _ => 0) 1 (4 + 1) 0 (-(10 ^ 10)) 1000 = (2, 0)
    rw [runLoop_step _ _ _ _ _ _ (by norm_num)]
    rw [show (4 : ℕ) = 3 + 1 from rfl, runLoop_step _ _ _ _ _ _ (by norm_num)]
    rw [show (3 : ℕ) = 2 + 1 from rfl, runLoop_stop _ _ _ _ _ _ (by norm_num)]
  rw [e]
  exact ⟨rfl, by decide⟩

/-- Claim C2 amended: with `minImprovement = 1.0` and `maxIterations = 5`
the loop terminates after exactly 2 rounds — not 1 and not 5 — whenever the
first round's score exceeds `-1e10 + 1` (so the sentinel-based first delta
exceeds the threshold, forcing a second round) and the second round
improves on the first by at most `1.0`; the loop still executes
`min(maxIterations, first round with delta ≤ threshold)` rounds, with the
first delta computed against the sentinel previous score `-1e10`. -/
theorem claim_C2_amended (s : ℕ → ℚ) (h1 : -(10 ^ 10) + 1 < s 0) (h2 : s 1 - s 0 ≤ 1) :
    (runLFI s 5 1).1 = 2 := by
  show (runLoop s 1 (4 + 1) 0 (-(10 ^ 10)) 1000).1 = 2
  rw [runLoop_step s 1 4 0 (-(10 ^ 10)) 1000 (by norm_num)]
  rw [show (4 : ℕ) = 3 + 1 from rfl, runLoop_step s 1 3 1 (s 0) (s 0 - -(10 ^ 10)) (by linarith)]
  rw [show (3 : ℕ) = 2 + 1 from rfl, runLoop_stop s 1 2 2 (s 1) (s 1 - s 0) (by linarith)]

/-- Instantiation of the amended convergence-count theorem at constant
round scores `0`. -/
theorem claim_C2_amended_witness : (runLFI (fun _ => 0) 5 1).1 = 2 :=
  claim_C2_amended (fun _ => 0) (by norm_num) (by norm_num)

lemma runLoop_spec (s : ℕ → ℚ) (minImp : ℚ) : ∀ fuel iter,
    iter ≤ (runLoop s minImp fuel iter (prevSeq s iter) (deltaSeq s iter)).1 ∧
    (runLoop s minImp fuel iter (prevSeq s iter) (deltaSeq s iter)).1 ≤ iter + fuel ∧
    ((runLoop s minImp fuel iter (prevSeq s iter) (deltaSeq s iter)).1 < iter + fuel →
      deltaSeq s (runLoop s minImp fuel iter (prevSeq s iter) (deltaSeq s iter)).1 ≤ minImp) ∧
    (∀ j, iter ≤ j → j < (runLoop s minImp fuel iter (prevSeq s iter) (deltaSeq s iter)).1 →
      minImp < deltaSeq s j) ∧
    (runLoop s minImp fuel iter (prevSeq s iter) (deltaSeq s iter)).2 =
      prevSeq s (runLoop s minImp fuel iter (prevSeq s iter) (deltaSeq s iter)).1 := by
  intro fuel
  induction fuel with
  | zero =>
    intro iter
    refine ⟨le_refl _, by simp [runLoop], ?_, ?_, rfl⟩
    · intro h
      exact absurd h (by simp [runLoop])
    · intro j h1 h2
      simp only [runLoop] at h2
      omega
  | succ fuel ih =>
    intro iter
    by_cases h : deltaSeq s iter > minImp
    · have e : runLoop s minImp (fuel + 1) iter (prevSeq s iter) (deltaSeq s iter) =
          runLoop s minImp fuel (iter + 1) (prevSeq s (iter + 1)) (deltaSeq s (iter + 1)) := by
        rw [runLoop, if_pos h]
        rfl
      rw [e]
      obtain ⟨h1, h2, h3, h4, h5⟩ := ih (iter + 1)
      refine ⟨by omega, by omega, fun hc => h3 (by omega), ?_, h5⟩
      intro j hj1 hj2
      rcases Nat.eq_or_lt_of_le hj1 with rfl | hj
      · exact h
      · exact h4 j hj hj2
    · have e : runLoop s minImp (fuel + 1) iter (prevSeq s iter) (deltaSeq s iter) =
          (iter, prevSeq s iter) := by
        rw [runLoop, if_neg h]
      rw [e]
      exact ⟨le_refl _, by omega, fun _ => not_lt.mp h, fun j hj1 hj2 => by omega, rfl⟩

/-- Claim C6: for every `maxIterations` and `minImprovement` the
convergence loop terminates; it runs at most `maxIterations` rounds, every
round it did run (other than the final one, and including the sentinel
round 0 state) saw `delta > minImprovement`, and when it stopped short of
the iteration cap the final delta was at most `minImprovement`. -/
theorem claim_C6_termination (s : ℕ → ℚ) (maxI : ℕ) (minImp : ℚ) :
    (runLFI s maxI minImp).1 ≤ maxI ∧
    ((runLFI s maxI minImp).1 < maxI → deltaSeq s (runLFI s maxI minImp).1 ≤ minImp) ∧
    (∀ j, j < (runLFI s maxI minImp).1 → minImp < deltaSeq s j) := by
  obtain ⟨h1, h2, h3, h4, h5⟩ := runLoop_spec s minImp maxI 0
  refine ⟨by simpa using h2, ?_, ?_⟩
  · intro hc
    exact h3 (by simpa using hc)
  · intro j hj
    exact h4 j (Nat.zero_le j) hj

/-- Instantiation of the termination theorem at concrete parameters. -/
theorem claim_C6_termination_witness :
    (runLFI (fun _ => 0) 3 (1 / 2)).1 ≤ 3 ∧
    ((runLFI (fun _ => 0) 3 (1 / 2)).1 < 3 →
      deltaSeq (fun _ => 0) (runLFI (fun _ => 0) 3 (1 / 2)).1 ≤ 1 / 2) ∧
    (∀ j, j < (runLFI (fun _ => 0) 3 (1 / 2)).1 → 1 / 2 < deltaSeq (fun _ => 0) j) :=
  claim_C6_termination (fun _ => 0) 3 (1 / 2)

/-! ## Claims C3 and C4: the Model Rewriter -/

/-- The replacement atom `lfi(i) :: lfi_fact_i(args)` for slot `i`. -/
def replacementAtom (i : ℕ) (args : List Str) : Atom :=
  { functor := lfiFactName i, args := args, probability := some (ProbAnn.lfi i) }

/-- The redirection clause `p(args) :- lfi_fact_i(args)`. -/
def redirectClause (functor : Str) (i : ℕ) (args : List Str) : PClause :=
  PClause.clause { functor := functor, args := args, probability := none }
    (Body.atomB (mkLfiFact i args))

/-- The query declaration `query(lfi_fact_i(args))`. -/
def queryDecl (i : ℕ) (args : List Str) : PClause :=
  PClause.fact { functor := "query".data, args := [renderAtom (mkLfiFact i args)], probability := none }

/-- The post-`_process_atom` state: slot `i`'s initial weight, the display
name and the query atom appended, and the random stream advanced exactly
when a draw was consumed. -/
def pushSlot (st : LFIState) (a : Atom) (w : ℚ) (advance : Bool) : LFIState :=
  { weights := st.weights ++ [w], names := st.names ++ [a],
    queries := st.queries ++ [mkLfiFact st.weights.length a.args],
    rng := if advance then st.rng + 1 else st.rng }

lemma processAtom_learnable_eq (rand : ℕ → ℚ) (st : LFIState) (a : Atom)
    (start : Option ℚ) (h : a.probability = some (ProbAnn.t start)) :
    processAtom rand st a =
      (replacementAtom st.weights.length a.args,
       [redirectClause a.functor st.weights.length a.args, queryDecl st.weights.length a.args],
       pushSlot st a (startVal rand st.rng start) start.isNone) := by
  unfold processAtom replacementAtom redirectClause queryDecl pushSlot
  rw [h]
  cases start <;> rfl

lemma processAtom_weights_length (rand : ℕ → ℚ) (st : LFIState) (a : Atom) :
    (processAtom rand st a).2.2.weights.length =
      st.weights.length + (if isLearnable a then 1 else 0) := by
  unfold processAtom isLearnable
  rcases a.probability with _ | p
  · simp
  · rcases p with v | start | i <;> simp

lemma processHeads_weights_length (rand : ℕ → ℚ) : ∀ (heads : List Atom) (st : LFIState),
    (processHeads rand st heads).2.2.weights.length =
      st.weights.length + heads.countP (fun h => isLearnable h) := by
  intro heads
  induction heads with
  | nil => intro st; simp [processHeads]
  | cons h hs ih =>
    intro st
    rw [processHeads]
    rw [ih, processAtom_weights_length, List.countP_cons]
    by_cases hl : isLearnable h <;> (simp [hl]; try omega)

lemma iterProg_cons_clause (rand : ℕ → ℚ) (st : LFIState) (h : Atom) (b : Body)
    (cs : List PClause) (hq : ¬ isQueryAtom h = true) :
    iterProg rand st (PClause.clause h b :: cs) =
      (PClause.clause (processAtom rand st h).1 b ::
        ((processAtom rand st h).2.1 ++ (iterProg rand (processAtom rand st h).2.2 cs).1),
       (iterProg rand (processAtom rand st h).2.2 cs).2) := by
  rw [iterProg, if_neg hq]

lemma iterProg_cons_clause_query (rand : ℕ → ℚ) (st : LFIState) (h : Atom) (b : Body)
    (cs : List PClause) (hq : isQueryAtom h = true) :
    iterProg rand st (PClause.clause h b :: cs) = iterProg rand st cs := by
  rw [iterProg, if_pos hq]

lemma iterProg_cons_ad (rand : ℕ → ℚ) (st : LFIState) (heads : List Atom) (b : Body)
    (cs : List PClause) :
    iterProg rand st (PClause.ad heads b :: cs) =
      (PClause.ad (processHeads rand st heads).1 b ::
        ((processHeads rand st heads).2.1 ++
          (iterProg rand (processHeads rand st heads).2.2 cs).1),
       (iterProg rand (processHeads rand st heads).2.2 cs).2) := by
  rw [iterProg]

lemma iterProg_cons_fact (rand : ℕ → ℚ) (st : LFIState) (a : Atom)
    (cs : List PClause) (hq : ¬ isQueryAtom a = true) :
    iterProg rand st (PClause.fact a :: cs) =
      (PClause.fact (processAtom rand st a).1 ::
        ((processAtom rand st a).2.1 ++ (iterProg rand (processAtom rand st a).2.2 cs).1),
       (iterProg rand (processAtom rand st a).2.2 cs).2) := by
  rw [iterProg, if_neg hq]

lemma iterProg_cons_fact_query (rand : ℕ → ℚ) (st : LFIState) (a : Atom)
    (cs : List PClause) (hq : isQueryAtom a = true) :
    iterProg rand st (PClause.fact a :: cs) = iterProg rand st cs := by
  rw [iterProg, if_pos hq]

/-- Claim C3 amended: one full traversal of the clause view grows the
Weight Store by exactly the number of learnable atoms discovered in the
source; from the fresh state the store length is exactly that number. The
assignment is NOT stable across traversals: each new traversal appends
fresh slots again (see the counterexample), the length is fixed during a
run only because the engine materialises the view once in `prepare`. -/
theorem claim_C3_store_growth (rand : ℕ → ℚ) : ∀ (src : List PClause) (st : LFIState),
    (iterProg rand st src).2.weights.length = st.weights.length + learnableCount src := by
  intro src
  induction src with
  | nil => intro st; simp [iterProg, learnableCount]
  | cons c cs ih =>
    intro st
    have hsum : learnableCount (c :: cs) = learnableHeads c + learnableCount cs := by
      simp [learnableCount]
    rcases c with ⟨h, b⟩ | ⟨heads, b⟩ | a
    · by_cases hq : isQueryAtom h = true
      · rw [iterProg_cons_clause_query rand st h b cs hq, ih, hsum, learnableHeads,
          if_pos hq]
        omega
      · rw [iterProg_cons_clause rand st h b cs hq]
        simp only [ih, processAtom_weights_length, hsum, learnableHeads, if_neg hq]
        omega
    · rw [iterProg_cons_ad rand st heads b cs]
      simp only [ih, processHeads_weights_length, hsum, learnableHeads]
      omega
    · by_cases hq : isQueryAtom a = true
      · rw [iterProg_cons_fact_query rand st a cs hq, ih, hsum, learnableHeads, if_pos hq]
        omega
      · rw [iterProg_cons_fact rand st a cs hq]
        simp only [ih, processAtom_weights_length, hsum, learnableHeads, if_neg hq]
        omega

/-- Claim C3 counterexample: traversing the clause view a second time does
NOT reuse the first traversal's slot assignment — for a source with one
learnable fact, the first traversal leaves one weight slot, but a second
traversal of the same source appends a fresh slot (store length 2) and
registers a second query atom `lfi_fact_1` for the very same source atom
instead of the first traversal's `lfi_fact_0`. -/
theorem claim_C3_counterexample :
    (iterProg (fun _ => 0) initState
      [PClause.fact { functor := ['p'], args := [], probability := some (ProbAnn.t none) }]
      ).2.weights.length = 1 ∧
    (iterProg (fun _ => 0)
      (iterProg (fun _ => 0) initState
        [PClause.fact { functor := ['p'], args := [], probability := some (ProbAnn.t none) }]).2
      [PClause.fact { functor := ['p'], args := [], probability := some (ProbAnn.t none) }]
      ).2.weights.length = 2 ∧
    (iterProg (fun _ => 0)
      (iterProg (fun _ => 0) initState
        [PClause.fact { functor := ['p'], args := [], probability := some (ProbAnn.t none) }]).2
      [PClause.fact { functor := ['p'], args := [], probability := some (ProbAnn.t none) }]
      ).2.queries = [mkLfiFact 0 [], mkLfiFact 1 []] := by
  have hq : ¬ isQueryAtom
      { functor := ['p'], args := [], probability := some (ProbAnn.t none) } = true := by
    decide
  have hstate : ∀ st : LFIState, (iterProg (fun _ => 0) st
      [PClause.fact { functor := ['p'], args := [], probability := some (ProbAnn.t none) }]).2 =
      pushSlot st { functor := ['p'], args := [], probability := some (ProbAnn.t none) } 0 true := by
    intro st
    rw [iterProg_cons_fact _ _ _ _ hq,
      processAtom_learnable_eq (fun _ => 0) st _ none rfl]
    rfl
  simp only [hstate]
  refine ⟨rfl, rfl, rfl⟩

/-- Claim C4: `_process_atom` on a learnable atom `t(v)::p(args)` with the
next free slot index `i` produces the replacement `lfi(i)::lfi_fact_i(args)`,
the redirection clause `p(args) :- lfi_fact_i(args)` and a query
declaration for `lfi_fact_i(args)`, records the query atom and display
name, and appends slot `i`'s initial value: the explicit constant start
value when one was given, and otherwise the next draw of the random
source, which lies in the open interval `(0, 1)` whenever the source's
draws do. -/
theorem claim_C4_process_atom (rand : ℕ → ℚ) (st : LFIState) (a : Atom)
    (start : Option ℚ) (h : a.probability = some (ProbAnn.t start))
    (hr : ∀ k, 0 < rand k ∧ rand k < 1) :
    processAtom rand st a =
      (replacementAtom st.weights.length a.args,
       [redirectClause a.functor st.weights.length a.args, queryDecl st.weights.length a.args],
       pushSlot st a (startVal rand st.rng start) start.isNone) ∧
    (∀ c, start = some c → startVal rand st.rng start = c) ∧
    (start = none → 0 < startVal rand st.rng start ∧ startVal rand st.rng start < 1) := by
  refine ⟨processAtom_learnable_eq rand st a start h, ?_, ?_⟩
  · intro c hc
    rw [hc]
    rfl
  · intro hc
    rw [hc]
    exact hr st.rng

/-- Instantiation of the `_process_atom` theorem on a learnable fact with
no explicit start value and the constant-half random source. -/
theorem claim_C4_process_atom_witness :
    0 < startVal (fun _ => 1 / 2) 0 none ∧ startVal (fun _ => 1 / 2) 0 none < 1 :=
  (claim_C4_process_atom (fun _ => 1 / 2) initState
    { functor := ['p'], args := [], probability := some (ProbAnn.t none) } none rfl
    (fun _ => by norm_num)).2.2 rfl

/-! ## Claims C1 and C7: the Parameter Updater -/

lemma getD_set_self {α : Type} (l : List α) (i : ℕ) (a d : α) (h : i < l.length) :
    (l.set i a).getD i d = a := by
  simp [List.getD_eq_getElem?_getD, List.getElem?_set, h]

lemma getD_set_other {α : Type} (l : List α) (i j : ℕ) (a d : α) (h : ¬ i = j) :
    (l.set i a).getD j d = l.getD j d := by
  simp [List.getD_eq_getElem?_getD, List.getElem?_set, h]

lemma tallyPairs_spec : ∀ (pairs : List (Str × ℚ)) (marg : List ℚ) (cnt : List ℕ)
    (out : List ℚ × List ℕ), cnt.length = marg.length →
    tallyPairs pairs (marg, cnt) = Except.ok out →
    out.1.length = marg.length ∧ out.2.length = cnt.length ∧
    ∀ i, i < marg.length →
      out.1.getD i 0 = marg.getD i 0 +
        ((pairs.filter fun p => parseSlot p.1 == some i).map fun p => p.2).sum ∧
      out.2.getD i 0 = cnt.getD i 0 +
        (pairs.filter fun p => parseSlot p.1 == some i).length := by
  intro pairs
  induction pairs with
  | nil =>
    intro marg cnt out _ h
    rw [tallyPairs] at h
    cases h
    simp
  | cons p rest ih =>
    intro marg cnt out hlen h
    rw [tallyPairs] at h
    cases hp : parseSlot p.1 with
    | none => rw [hp] at h; cases h
    | some index =>
      rw [hp] at h
      simp only at h
      by_cases hb : index < marg.length
      · rw [if_pos hb] at h
        obtain ⟨h1, h2, h3⟩ := ih _ _ _
          (by rw [List.length_set, List.length_set, hlen]) h
        rw [List.length_set] at h1 h2
        refine ⟨h1, h2, ?_⟩
        intro i hi
        obtain ⟨hm, hc⟩ := h3 i (by rwa [List.length_set])
        have hfil : (p :: rest).filter (fun q => parseSlot q.1 == some i) =
            if index = i then p :: rest.filter (fun q => parseSlot q.1 == some i)
            else rest.filter (fun q => parseSlot q.1 == some i) := by
          by_cases hix : index = i
          · rw [if_pos hix, List.filter_cons, if_pos (by simp [hp, hix])]
          · rw [if_neg hix, List.filter_cons, if_neg (by simp [hp, hix])]
        by_cases hix : index = i
        · subst hix
          rw [hm, hc, hfil, if_pos rfl, getD_set_self _ _ _ _ hb,
            getD_set_self _ _ _ _ (by omega : index < cnt.length)]
          constructor
          · rw [List.map_cons, List.sum_cons]
            ring
          · rw [List.length_cons]
            omega
        · rw [hm, hc, hfil, if_neg hix, getD_set_other _ _ _ _ _ hix,
            getD_set_other _ _ _ _ _ hix]
          exact ⟨rfl, rfl⟩
      · rw [if_neg hb] at h
        cases h

lemma slotSum_cons (r : ℚ × List (Str × ℚ)) (rest : List (ℚ × List (Str × ℚ))) (i : ℕ) :
    slotSum (r :: rest) i =
      ((r.2.filter fun p => parseSlot p.1 == some i).map fun p => p.2).sum +
        slotSum rest i := by
  simp [slotSum]

lemma slotCount_cons (r : ℚ × List (Str × ℚ)) (rest : List (ℚ × List (Str × ℚ))) (i : ℕ) :
    slotCount (r :: rest) i =
      (r.2.filter fun p => parseSlot p.1 == some i).length + slotCount rest i := by
  simp [slotCount]

lemma updateLoop_cons_ok {S : Type} [Add S] (log : ℚ → S) (r : ℚ × List (Str × ℚ))
    (rest : List (ℚ × List (Str × ℚ))) (marg m : List ℚ) (cnt c : List ℕ) (sc : S)
    (htp : tallyPairs r.2 (marg, cnt) = Except.ok (m, c)) :
    updateLoop log (r :: rest) marg cnt sc =
      if 0 < r.1 then updateLoop log rest m c (sc + log r.1) else Except.error () := by
  rw [updateLoop, htp]
  rfl

lemma updateLoop_cons_err {S : Type} [Add S] (log : ℚ → S) (r : ℚ × List (Str × ℚ))
    (rest : List (ℚ × List (Str × ℚ))) (marg : List ℚ) (cnt : List ℕ) (sc : S)
    (htp : tallyPairs r.2 (marg, cnt) = Except.error ()) :
    updateLoop log (r :: rest) marg cnt sc = Except.error () := by
  rw [updateLoop, htp]
  rfl

lemma updateLoop_spec {S : Type} [AddMonoid S] (log : ℚ → S) :
    ∀ (results : List (ℚ × List (Str × ℚ))) (marg : List ℚ) (cnt : List ℕ) (sc : S)
      (out : List ℚ × List ℕ × S), cnt.length = marg.length →
    updateLoop log results marg cnt sc = Except.ok out →
    out.1.length = marg.length ∧ out.2.1.length = cnt.length ∧
    (∀ i, i < marg.length →
      out.1.getD i 0 = marg.getD i 0 + slotSum results i ∧
      out.2.1.getD i 0 = cnt.getD i 0 + slotCount results i) ∧
    out.2.2 = sc + (results.map fun r => log r.1).sum ∧
    ∀ r ∈ results, 0 < r.1 := by
  intro results
  induction results with
  | nil =>
    intro marg cnt sc out _ h
    rw [updateLoop] at h
    cases h
    refine ⟨rfl, rfl, ?_, by simp, by simp⟩
    intro i _
    simp [slotSum, slotCount]
  | cons r rest ih =>
    intro marg cnt sc out hlen h
    cases htp : tallyPairs r.2 (marg, cnt) with
    | error u =>
      cases u
      rw [updateLoop_cons_err log r rest marg cnt sc htp] at h
      cases h
    | ok mc =>
      rw [updateLoop_cons_ok log r rest marg mc.1 cnt mc.2 sc (by rw [htp])] at h
      by_cases hr : 0 < r.1
      · rw [if_pos hr] at h
        obtain ⟨t1, t2, t3⟩ := tallyPairs_spec r.2 marg cnt mc hlen htp
        obtain ⟨h1, h2, h3, h4, h5⟩ := ih _ _ _ _ (by rw [t1, t2, hlen]) h
        rw [t1] at h1
        rw [t2] at h2
        refine ⟨h1, h2, ?_, ?_, ?_⟩
        · intro i hi
          obtain ⟨m3, c3⟩ := h3 i (by omega)
          obtain ⟨tm, tc⟩ := t3 i hi
          rw [m3, c3, tm, tc, slotSum_cons, slotCount_cons]
          constructor
          · ring
          · omega
        · rw [h4, List.map_cons, List.sum_cons, add_assoc]
        · intro x hx
          rcases List.mem_cons.mp hx with rfl | hx
          · exact hr
          · exact h5 x hx
      · rw [if_neg hr] at h
        cases h

lemma getD_replicate_self {α : Type} (n i : ℕ) (z : α) :
    (List.replicate n z).getD i z = z := by
  by_cases h : i < n <;> simp [List.getD_eq_getElem?_getD, List.getElem?_replicate, h]

lemma applyUpdate_length (weights marg : List ℚ) (cnt : List ℕ) :
    (applyUpdate weights marg cnt).length = weights.length := by
  simp [applyUpdate]

lemma applyUpdate_getD (weights marg : List ℚ) (cnt : List ℕ) (i : ℕ)
    (h : i < weights.length) :
    (applyUpdate weights marg cnt).getD i 0 =
      if 0 < cnt.getD i 0 then marg.getD i 0 / (cnt.getD i 0 : ℚ)
      else weights.getD i 0 := by
  unfold applyUpdate
  simp [List.getD_eq_getElem?_getD, List.getElem?_map, List.getElem?_range, h]

lemma update_ok_elim {S : Type} [Add S] [Zero S] (log : ℚ → S) (weights : List ℚ)
    (results : List (ℚ × List (Str × ℚ))) (out : List ℚ × S)
    (h : update log weights results = Except.ok out) :
    ∃ mcs : List ℚ × List ℕ × S,
      updateLoop log results (List.replicate weights.length 0)
        (List.replicate weights.length 0) 0 = Except.ok mcs ∧
      out = (applyUpdate weights mcs.1 mcs.2.1, mcs.2.2) := by
  unfold update at h
  cases hu : updateLoop log results (List.replicate weights.length 0)
      (List.replicate weights.length 0) 0 with
  | error u => rw [hu] at h; cases h
  | ok mcs =>
    rw [hu] at h
    cases h
    exact ⟨mcs, rfl, rfl⟩

/-- Claim C1 amended: when `_update` succeeds, the new weight of every slot
with at least one contributing (example, query-instance) pair equals the
sum of the posterior values attributed to that slot divided by the number
of such PAIRS — not the number of examples, since one example may report
several ground instances of the same slot's query — and every slot with
zero contributing pairs keeps its previous value unchanged (no update, not
reset to zero). -/
theorem claim_C1_update_weights {S : Type} [AddMonoid S] (log : ℚ → S) (weights : List ℚ)
    (results : List (ℚ × List (Str × ℚ))) (newW : List ℚ) (score : S)
    (h : update log weights results = Except.ok (newW, score)) :
    newW.length = weights.length ∧
    ∀ i, i < weights.length →
      (0 < slotCount results i →
        newW.getD i 0 = slotSum results i / (slotCount results i : ℚ)) ∧
      (slotCount results i = 0 → newW.getD i 0 = weights.getD i 0) := by
  obtain ⟨mcs, hu, hout⟩ := update_ok_elim log weights results (newW, score) h
  obtain ⟨l1, l2, hmc, _, _⟩ := updateLoop_spec log results _ _ _ _
    (by rw [List.length_replicate, List.length_replicate]) hu
  rw [List.length_replicate] at l1 l2
  have hnew : newW = applyUpdate weights mcs.1 mcs.2.1 := congrArg Prod.fst hout
  refine ⟨by rw [hnew, applyUpdate_length], ?_⟩
  intro i hi
  obtain ⟨hm, hc⟩ := hmc i (by rwa [List.length_replicate])
  have hm0 : mcs.1.getD i 0 = slotSum results i := by
    rw [hm, getD_replicate_self, zero_add]
  have hc0 : mcs.2.1.getD i 0 = slotCount results i := by
    rw [hc, getD_replicate_self, zero_add]
  rw [hnew, applyUpdate_getD _ _ _ _ hi, hm0, hc0]
  constructor
  · intro hpos
    rw [if_pos hpos]
  · intro hzero
    rw [hzero, if_neg (lt_irrefl 0)]

/-- Claim C1 counterexample: one example whose compiled structure reports
two ground instances of slot 0's query, `lfi_fact_0(a) ↦ 1` and
`lfi_fact_0(b) ↦ 0`. The code divides by the number of contributing
(example, query-instance) pairs and stores `(1+0)/2 = 1/2`, while the
claim's formula — posterior sum divided by the count of EXAMPLES that
reported a value for the slot — yields `(1+0)/1 = 1`. -/
theorem claim_C1_counterexample :
    update (S := ℚ) (fun _ => 0) [0]
      [(1, [(renderAtom (mkLfiFact 0 [['a']]), 1), (renderAtom (mkLfiFact 0 [['b']]), 0)])] =
      Except.ok ([1 / 2], 0) ∧
    claimNewWeight
      [(1, [(renderAtom (mkLfiFact 0 [['a']]), 1), (renderAtom (mkLfiFact 0 [['b']]), 0)])] 0 = 1 ∧
    ¬ ((1 : ℚ) / 2) = 1 := by
  refine ⟨?_, ?_, by norm_num⟩
  · have h1 : tallyPairs
        [(renderAtom (mkLfiFact 0 [['a']]), 1), (renderAtom (mkLfiFact 0 [['b']]), 0)]
        ([(0 : ℚ)], [(0 : ℕ)]) = Except.ok ([1], [2]) := by
      simp [tallyPairs, parseSlot_render]
    unfold update
    rw [show (List.replicate (List.length [(0 : ℚ)]) (0 : ℚ)) = [0] from rfl,
      show (List.replicate (List.length [(0 : ℚ)]) (0 : ℕ)) = [0] from rfl]
    rw [updateLoop_cons_ok (fun _ => 0) _ _ _ _ _ _ _ h1]
    rw [if_pos (by norm_num : (0 : ℚ) < 1)]
    rw [updateLoop]
    show Except.ok (applyUpdate [0] [1] [2], (0 : ℚ) + (fun _ => (0 : ℚ)) 1) =
      Except.ok ([1 / 2], 0)
    norm_num [applyUpdate, List.range_succ]
  · simp [claimNewWeight, slotSum, examplesReporting, parseSlot_render]

/-- Instantiation of the update-weights theorem: one example reporting
posterior `1/2` for slot 0's query gives new weight `(1/2)/1 = 1/2`. -/
theorem claim_C1_update_weights_witness :
    [(1 : ℚ) / 2].length = [(1 : ℚ)].length ∧
    ∀ i, i < [(1 : ℚ)].length →
      (0 < slotCount [((1 : ℚ), [(renderAtom (mkLfiFact 0 []), (1 : ℚ) / 2)])] i →
        ([(1 : ℚ) / 2]).getD i 0 =
          slotSum [((1 : ℚ), [(renderAtom (mkLfiFact 0 []), (1 : ℚ) / 2)])] i /
            (slotCount [((1 : ℚ), [(renderAtom (mkLfiFact 0 []), (1 : ℚ) / 2)])] i : ℚ)) ∧
      (slotCount [((1 : ℚ), [(renderAtom (mkLfiFact 0 []), (1 : ℚ) / 2)])] i = 0 →
        ([(1 : ℚ) / 2]).getD i 0 = ([(1 : ℚ)]).getD i 0) := by
  refine claim_C1_update_weights (S := ℚ) (fun _ => 0) [1] _ [1 / 2] 0 ?_
  have h1 : tallyPairs [(renderAtom (mkLfiFact 0 []), (1 : ℚ) / 2)]
      ([(0 : ℚ)], [(0 : ℕ)]) = Except.ok ([1 / 2], [1]) := by
    simp [tallyPairs, parseSlot_render]
  unfold update
  rw [show (List.replicate (List.length [(1 : ℚ)]) (0 : ℚ)) = [0] from rfl,
    show (List.replicate (List.length [(1 : ℚ)]) (0 : ℕ)) = [0] from rfl]
  rw [updateLoop_cons_ok (fun _ => 0) _ _ _ _ _ _ _ h1]
  rw [if_pos (by norm_num : (0 : ℚ) < 1)]
  rw [updateLoop]
  show Except.ok (applyUpdate [1] [1 / 2] [1], (0 : ℚ) + (fun _ => (0 : ℚ)) 1) =
    Except.ok ([1 / 2], 0)
  norm_num [applyUpdate, List.range_succ]

/-- Claim C7: whenever `_update` returns, the round score it returns is the
sum over all compiled examples of the natural logarithm of that example's
evidence probability; and an evidence probability of `0.0` (or below) is
guarded — `math.log` raises there, aborting the round as a fatal error
surfaced to the caller — rather than producing an undefined logarithm. -/
theorem claim_C7_round_score (weights : List ℚ) (results : List (ℚ × List (Str × ℚ))) :
    (∀ newW score, update (fun q : ℚ => Real.log (q : ℝ)) weights results =
        Except.ok (newW, score) →
      score = (results.map fun r => Real.log (r.1 : ℝ)).sum) ∧
    ((∃ r ∈ results, r.1 ≤ 0) →
      update (fun q : ℚ => Real.log (q : ℝ)) weights results = Except.error ()) := by
  constructor
  · intro newW score h
    obtain ⟨mcs, hu, hout⟩ := update_ok_elim _ weights results (newW, score) h
    obtain ⟨_, _, _, hsc, _⟩ := updateLoop_spec _ results _ _ _ _
      (by rw [List.length_replicate, List.length_replicate]) hu
    have hscore : score = mcs.2.2 := (congrArg Prod.snd hout)
    rw [hscore, hsc, zero_add]
  · intro hex
    cases hud : update (fun q : ℚ => Real.log (q : ℝ)) weights results with
    | error u => cases u; rfl
    | ok out =>
      obtain ⟨mcs, hu, _⟩ := update_ok_elim _ weights results out hud
      obtain ⟨_, _, _, _, hpos⟩ := updateLoop_spec _ results _ _ _ _
        (by rw [List.length_replicate, List.length_replicate]) hu
      obtain ⟨r, hr, hr0⟩ := hex
      exact absurd (hpos r hr) (not_lt.mpr hr0)

/-- Instantiation of the round-score theorem: an evidence probability `1`
contributes `ln 1` to the score, and an evidence probability `0` aborts
the update with an error. -/
theorem claim_C7_round_score_witness :
    (0 : ℝ) + Real.log ((1 : ℚ) : ℝ) =
      ([((1 : ℚ), ([] : List (Str × ℚ)))].map fun r => Real.log ((r.1 : ℚ) : ℝ)).sum ∧
    update (fun q : ℚ => Real.log (q : ℝ)) [] [((0 : ℚ), ([] : List (Str × ℚ)))] =
      Except.error () :=
  ⟨(claim_C7_round_score [] [((1 : ℚ), [])]).1 [] ((0 : ℝ) + Real.log ((1 : ℚ) : ℝ)) rfl,
   (claim_C7_round_score [] [((0 : ℚ), [])]).2 ⟨(0, []), by simp, le_refl 0⟩⟩

/-! ## Claim C8: grounding failure during preparation -/

/-- Claim C8 counterexample: a grounder that grounds the first example of a
group but raises on the second makes the whole preparation fail: the
exception propagates out of `_compile_examples` and no compiled-example
list is produced at all — the failure is not example-scoped, nothing is
skipped, and the remaining examples are not completed. -/
theorem claim_C8_counterexample :
    compileExamples (G := ℕ) (C := ℕ)
      (fun _ ev => if ev.any (fun p => p.2 == ['y']) then Except.error () else Except.ok 0)
      (fun g => g)
      [([['a']], [[['x']], [['y']], [['z']]])] = Except.error () := rfl

lemma except_ok_bind {α β : Type} (a : α) (f : α → Except Unit β) :
    (Except.ok a >>= f) = f a := rfl

lemma compileGroup_length {G C : Type} (ground : Option G → List (Str × TV) → Except Unit G)
    (compile : G → C) (atoms : List Str) :
    ∀ (exs : List (List TV)) (gp : Option G) (r : List (List Str × List TV × C)),
    compileGroup ground compile atoms gp exs = Except.ok r → r.length = exs.length := by
  intro exs
  induction exs with
  | nil =>
    intro gp r h
    rw [compileGroup] at h
    cases h
    rfl
  | cons ex rest ih =>
    intro gp r h
    rw [compileGroup] at h
    cases hg : ground gp (atoms.zip ex) with
    | error u => rw [hg] at h; cases h
    | ok gp' =>
      rw [hg] at h
      simp only [except_ok_bind] at h
      cases ht : compileGroup ground compile atoms (some gp') rest with
      | error u => rw [ht] at h; cases h
      | ok tail =>
        rw [ht] at h
        simp only [except_ok_bind] at h
        cases h
        simp [ih (some gp') tail ht]

/-- Claim C8 amended: a grounding failure during `_compile_examples` is a
whole-preparation failure — the exception propagates and the run aborts
with no compiled example list (see the counterexample); conversely, when
preparation succeeds nothing was skipped: it returns exactly one compiled
entry per example instance of every group. -/
theorem claim_C8_abort_or_complete {G C : Type}
    (ground : Option G → List (Str × TV) → Except Unit G) (compile : G → C) :
    ∀ (groups : List (List Str × List (List TV))) (res : List (List Str × List TV × C)),
    compileExamples ground compile groups = Except.ok res →
    res.length = (groups.map fun g => g.2.length).sum := by
  intro groups
  induction groups with
  | nil =>
    intro res h
    rw [compileExamples] at h
    cases h
    rfl
  | cons g gs ih =>
    intro res h
    rw [compileExamples] at h
    cases hg : compileGroup ground compile g.1 none g.2 with
    | error u => rw [hg] at h; cases h
    | ok r =>
      rw [hg] at h
      simp only [except_ok_bind] at h
      cases ht : compileExamples ground compile gs with
      | error u => rw [ht] at h; cases h
      | ok rs =>
        rw [ht] at h
        simp only [except_ok_bind] at h
        cases h
        rw [List.length_append, compileGroup_length ground compile g.1 g.2 none r hg, ih rs ht]
        simp

/-- Instantiation of the no-skip direction on a preparation that succeeds:
one group with two examples compiles to exactly two entries. -/
theorem claim_C8_abort_or_complete_witness :
    ([([['a']], [['x']], 0), ([['a']], [['y']], 0)] : List (List Str × List TV × ℕ)).length =
      ([([['a']], [[['x']], [['y']]])].map fun g => g.2.length).sum :=
  claim_C8_abort_or_complete (G := ℕ) (C := ℕ) (fun _ _ => Except.ok 0) (fun g => g)
    [([['a']], [[['x']], [['y']]])] [([['a']], [['x']], 0), ([['a']], [['y']], 0)] rfl

/-! ## Claim C10: example grouping -/

lemma addToGroup_sum (gs : List (List Str × List (List TV))) (k : List Str) (v : List TV) :
    ((addToGroup gs k v).map fun g => g.2.length).sum =
      (gs.map fun g => g.2.length).sum + 1 := by
  induction gs with
  | nil => simp [addToGroup]
  | cons g rest ih =>
    rw [addToGroup]
    by_cases h : g.1 = k
    · rw [if_pos h]
      simp only [List.map_cons, List.sum_cons, List.length_append, List.length_singleton]
      omega
    · rw [if_neg h]
      simp only [List.map_cons, List.sum_cons, ih]
      omega

lemma addToGroup_keys (gs : List (List Str × List (List TV))) (k : List Str) (v : List TV) :
    (addToGroup gs k v).map (fun g => g.1) =
      if k ∈ gs.map (fun g => g.1) then gs.map (fun g => g.1)
      else gs.map (fun g => g.1) ++ [k] := by
  induction gs with
  | nil => simp [addToGroup]
  | cons g rest ih =>
    rw [addToGroup]
    by_cases h : g.1 = k
    · rw [if_pos h]
      simp [h]
    · rw [if_neg h]
      simp only [List.map_cons, ih]
      by_cases hk : k ∈ rest.map (fun g => g.1)
      · rw [if_pos hk, if_pos (List.mem_cons_of_mem _ hk)]
      · rw [if_neg hk, if_neg ?_, List.cons_append]
        intro hc
        rcases List.mem_cons.mp hc with hc | hc
        · exact h hc.symm
        · exact hk hc

lemma addToGroup_keys_nodup (gs : List (List Str × List (List TV))) (k : List Str)
    (v : List TV) (h : (gs.map fun g => g.1).Nodup) :
    ((addToGroup gs k v).map fun g => g.1).Nodup := by
  rw [addToGroup_keys]
  by_cases hk : k ∈ gs.map (fun g => g.1)
  · rwa [if_pos hk]
  · rw [if_neg hk]
    rw [List.nodup_append]
    exact ⟨h, List.nodup_singleton k, by simpa using hk⟩

lemma addToGroup_mem_preserved (gs : List (List Str × List (List TV))) (k : List Str)
    (v : List TV) (k' : List Str) (v' : List TV)
    (h : ∃ g ∈ gs, g.1 = k' ∧ v' ∈ g.2) :
    ∃ g ∈ addToGroup gs k v, g.1 = k' ∧ v' ∈ g.2 := by
  induction gs with
  | nil => simp at h
  | cons g rest ih =>
    rw [addToGroup]
    obtain ⟨g0, hg0, hk0, hv0⟩ := h
    rcases List.mem_cons.mp hg0 with rfl | hmem
    · by_cases h1 : g0.1 = k
      · rw [if_pos h1]
        exact ⟨(g0.1, g0.2 ++ [v]), List.mem_cons_self _ _, hk0,
          List.mem_append_left _ hv0⟩
      · rw [if_neg h1]
        exact ⟨g0, List.mem_cons_self _ _, hk0, hv0⟩
    · by_cases h1 : g.1 = k
      · rw [if_pos h1]
        exact ⟨g0, List.mem_cons_of_mem _ hmem, hk0, hv0⟩
      · rw [if_neg h1]
        obtain ⟨g1, hg1, hk1, hv1⟩ := ih ⟨g0, hmem, hk0, hv0⟩
        exact ⟨g1, List.mem_cons_of_mem _ hg1, hk1, hv1⟩

lemma addToGroup_mem_new (gs : List (List Str × List (List TV))) (k : List Str)
    (v : List TV) : ∃ g ∈ addToGroup gs k v, g.1 = k ∧ v ∈ g.2 := by
  induction gs with
  | nil => exact ⟨(k, [v]), List.mem_singleton.mpr rfl, rfl, List.mem_singleton.mpr rfl⟩
  | cons g rest ih =>
    rw [addToGroup]
    by_cases h1 : g.1 = k
    · rw [if_pos h1]
      exact ⟨(g.1, g.2 ++ [v]), List.mem_cons_self _ _, h1, by simp⟩
    · rw [if_neg h1]
      obtain ⟨g0, hg0, hk, hv⟩ := ih
      exact ⟨g0, List.mem_cons_of_mem _ hg0, hk, hv⟩

lemma processExamples_err : ∀ (examples : List (List EvPair))
    (gs : List (List Str × List (List TV))),
    (∃ e ∈ examples, e = []) → processExamples examples gs = Except.error () := by
  intro examples
  induction examples with
  | nil =>
    intro gs h
    simp at h
  | cons e es ih =>
    intro gs h
    rw [processExamples]
    by_cases he : e.isEmpty
    · rw [if_pos he]
    · rw [if_neg he]
      obtain ⟨e0, he0, hnil⟩ := h
      rcases List.mem_cons.mp he0 with rfl | hmem
      · subst hnil
        simp at he
      · exact ih _ ⟨e0, hmem, hnil⟩

lemma processExamples_ok : ∀ (examples : List (List EvPair))
    (gs : List (List Str × List (List TV))), (∀ e ∈ examples, ¬ e = []) →
    ∃ groups, processExamples examples gs = Except.ok groups ∧
      (groups.map fun g => g.2.length).sum =
        (gs.map fun g => g.2.length).sum + examples.length ∧
      ((gs.map fun g => g.1).Nodup → (groups.map fun g => g.1).Nodup) ∧
      (∀ k v, (∃ g ∈ gs, g.1 = k ∧ v ∈ g.2) → ∃ g ∈ groups, g.1 = k ∧ v ∈ g.2) ∧
      (∀ e ∈ examples, ∃ g ∈ groups,
        g.1 = (sortExample e).map (fun p => p.1) ∧
        (sortExample e).map (fun p => p.2) ∈ g.2) := by
  intro examples
  induction examples with
  | nil =>
    intro gs _
    refine ⟨gs, by rw [processExamples], by simp, fun h => h, fun k v h => h, by simp⟩
  | cons e es ih =>
    intro gs hne
    have he : ¬ e.isEmpty = true := by
      simp only [List.isEmpty_iff]
      exact hne e (List.mem_cons_self e es)
    obtain ⟨groups, hok, hsum, hnd, hpres, hmem⟩ :=
      ih (addToGroup gs ((sortExample e).map fun p => p.1) ((sortExample e).map fun p => p.2))
        (fun x hx => hne x (List.mem_cons_of_mem e hx))
    refine ⟨groups, ?_, ?_, ?_, ?_, ?_⟩
    · rw [processExamples, if_neg he]
      exact hok
    · rw [hsum, addToGroup_sum, List.length_cons]
      omega
    · intro hnodup
      exact hnd (addToGroup_keys_nodup _ _ _ hnodup)
    · intro k v hkv
      exact hpres k v (addToGroup_mem_preserved _ _ _ _ _ hkv)
    · intro x hx
      rcases List.mem_cons.mp hx with rfl | hxmem
      · exact hpres _ _ (addToGroup_mem_new _ _ _)
      · exact hmem x hxmem

/-- Claim C10: grouping is total exactly on example lists whose examples
are all non-empty. When every example has at least one (atom, value) pair,
grouping succeeds, the group sizes sum to the number of examples, the keys
are pairwise distinct, and each example lands in the (unique) group keyed
by its sorted atom tuple. When some example is empty, the unpacking of the
zipped empty example raises, so the whole preparation fails before any
grounding or compilation is attempted — for every grounder and compiler. -/
theorem claim_C10_grouping (examples : List (List EvPair)) :
    ((∀ e ∈ examples, ¬ e = []) → ∃ groups,
      processExamples examples [] = Except.ok groups ∧
      (groups.map fun g => g.2.length).sum = examples.length ∧
      (groups.map fun g => g.1).Nodup ∧
      ∀ e ∈ examples, ∃ g ∈ groups,
        g.1 = (sortExample e).map (fun p => p.1) ∧
        (sortExample e).map (fun p => p.2) ∈ g.2) ∧
    ((∃ e ∈ examples, e = []) → ∀ {G C : Type}
      (ground : Option G → List (Str × TV) → Except Unit G) (compile : G → C),
      compileAll ground compile examples = Except.error ()) := by
  constructor
  · intro hne
    obtain ⟨groups, hok, hsum, hnd, _, hmem⟩ := processExamples_ok examples [] hne
    refine ⟨groups, hok, by simpa using hsum, hnd (by simp), hmem⟩
  · intro hex G C ground compile
    unfold compileAll
    rw [processExamples_err examples [] hex]
    rfl

/-- Instantiation of the grouping theorem: a two-example list groups into
one group of two instances, and a list containing an empty example makes
the whole preparation fail for any grounder. -/
theorem claim_C10_grouping_witness :
    (∃ groups, processExamples
        [[(['b'], "true".data), (['a'], "false".data)], [(['a'], "true".data), (['b'], "false".data)]]
        [] = Except.ok groups ∧
      (groups.map fun g => g.2.length).sum = 2 ∧
      (groups.map fun g => g.1).Nodup ∧
      ∀ e ∈ [[(['b'], "true".data), (['a'], "false".data)],
             [(['a'], "true".data), (['b'], "false".data)]], ∃ g ∈ groups,
        g.1 = (sortExample e).map (fun p => p.1) ∧
        (sortExample e).map (fun p => p.2) ∈ g.2) ∧
    compileAll (G := ℕ) (C := ℕ) (fun _ _ => Except.ok 0) (fun g => g)
      [[(['a'], "true".data)], []] = Except.error () :=
  ⟨(claim_C10_grouping _).1 (by simp),
   (claim_C10_grouping [[(['a'], "true".data)], []]).2 ⟨[], by simp, rfl⟩ _ _⟩

end LFI
